import Mathlib

/-!
# Verification of the `gu` change-summarization and branch-reconciliation core

This file gives a shallow embedding, in Lean 4, of the pure core of the `gu`
command-line tool:

* `src/commands/commit.ts` — parsing `git diff --name-status` output into
  change entries (`parseNameStatus`), grouping them into buckets
  (`bucketize`), and synthesizing a commit subject (`buildSuggestedSubject`)
  and body (`buildBody`), together with the helpers `shortPath`, `joinNice`,
  `actionPhrase` and `formatSection`;
* `src/commands/clean_branches.ts` — candidate selection for branch
  deletion, PR correlation (`correlatePRs`) and the two-phase
  safe/forced batch deletion (`safeDeleteBatch`).

JavaScript string and collection primitives used by the source are embedded
first (`jsTrim`, `splitChar`, `splitLines`, `joinSep`, `jsSetDedup`,
`jsToLower`, `jsSortWith`, `mapSet`/`mapGet`), each with a comment stating the
JS semantics it models.  Strings are modelled by Lean `String` with
code-point length (JS `length` counts UTF-16 units; the two agree on the
Basic Multilingual Plane and in particular on ASCII).
-/

namespace Gu

/-! ## JavaScript primitives -/

/-- Model of JS `String.prototype.trim`: drop whitespace from both ends.
(JS trims the full Unicode whitespace set; we model the ASCII subset
`' ' '\t' '\n' '\r'` via `Char.isWhitespace`, which is what appears in
`git` output.) -/
def jsTrim (s : String) : String :=
  ((s.toList.dropWhile Char.isWhitespace).reverse.dropWhile Char.isWhitespace).reverse.asString

/-- Split a character list at every occurrence of `sep`, keeping empty
segments (the JS `String.prototype.split` semantics for a single-character
separator). -/
def splitCharAux (sep : Char) : List Char → List Char → List String
  | [], acc => [acc.reverse.asString]
  | c :: cs, acc =>
    if c = sep then acc.reverse.asString :: splitCharAux sep cs []
    else splitCharAux sep cs (c :: acc)

/-- Model of JS `s.split(sep)` for a one-character separator `sep`. -/
def splitChar (sep : Char) (s : String) : List String :=
  splitCharAux sep s.toList []

/-- Remove a single trailing `'\r'` if present. -/
def stripTrailingCR (s : String) : String :=
  match s.toList.reverse with
  | '\r' :: rest => rest.reverse.asString
  | _ => s

/-- Model of JS `s.split(/\r?\n/)`: split at every `'\n'` and let each
newline consume at most one immediately preceding `'\r'`.  Splitting on
`'\n'` and then stripping one trailing `'\r'` from each piece realizes
exactly that. -/
def splitLines (s : String) : List String :=
  (splitChar '\n' s).map stripTrailingCR

/-- Model of JS `Array.prototype.join(sep)`. -/
def joinSep (sep : String) : List String → String
  | [] => ""
  | [x] => x
  | x :: y :: xs => x ++ sep ++ joinSep sep (y :: xs)

/-- Worker for `jsSetDedup`: keep the first occurrence of each element,
in encounter order. -/
def dedupAux : List String → List String → List String
  | [], _ => []
  | x :: xs, seen =>
    if x ∈ seen then dedupAux xs seen else x :: dedupAux xs (x :: seen)

/-- Model of JS `Array.from(new Set(items))`: deduplicate, keeping the
first occurrence of each element in insertion order (JS `Set` iterates in
insertion order). -/
def jsSetDedup (l : List String) : List String :=
  dedupAux l []

/-- Model of JS `String.prototype.toLowerCase` restricted to ASCII (the
only case-folding relevant to the branch names handled here). -/
def jsToLower (s : String) : String :=
  (s.toList.map Char.toLower).asString

/-- Model of JS `String.prototype.startsWith`. -/
def jsStartsWith (s pre : String) : Bool :=
  pre.toList.isPrefixOf s.toList

/-- Code-point lexicographic comparison of character lists:
`charListLe a b` is true iff `a` is less than or equal to `b` in plain
code-point order. -/
def charListLe : List Char → List Char → Bool
  | [], _ => true
  | _ :: _, [] => false
  | a :: as, b :: bs => if a = b then charListLe as bs else decide (a < b)

/-- Code-point lexicographic order on strings, as a proposition.  This
is *not* a model of the default-locale ICU collation behind
`localeCompare` (ICU orders by base letter first, e.g. `"a" < "B"`,
whereas code-point order has `"B" < "a"`); it serves only as one
concrete total, transitive comparator for instantiating the
collation-generic definitions below where theorems evaluate buckets on
concrete inputs — in those places the buckets involved hold at most one
distinct string, so the choice of comparator cannot affect the result. -/
def strLe (a b : String) : Prop :=
  charListLe a.toList b.toList = true

instance : DecidableRel strLe :=
  fun a b => inferInstanceAs (Decidable (charListLe a.toList b.toList = true))

/-- Model of JS `Array.prototype.sort` with a consistent comparator:
for a comparator that is total and transitive, the ECMAScript
specification guarantees the result is a stable, sorted permutation of
the input; a stable structural insertion sort, parameterized by the
comparison `le`, realizes exactly that contract. -/
def jsSortWith (le : String → String → Prop) [DecidableRel le] (l : List String) :
    List String :=
  l.insertionSort le

/-! ## `src/commands/commit.ts` — change classification -/

/-- A parsed change entry.  The TS source declares the union
`{kind: A|M|D|U|?; file} | {kind: R|C; from; to; score?}`, but the parser's
fallback path casts through `any`, so at runtime a single-path entry can
carry *any* kind character; we therefore keep the kind as a `Char` in both
shapes, mirroring the runtime values. -/
inductive ChangeEntry where
  | fileEntry (kind : Char) (file : String)
  | renameEntry (kind : Char) (fromPath toPath : String) (score : Option String)
  deriving DecidableEq, Repr

/-- The kind character of an entry (TS `e.kind`). -/
def ChangeEntry.kind : ChangeEntry → Char
  | .fileEntry k _ => k
  | .renameEntry k _ _ _ => k

/-- TS `e.file`.  On a rename-shaped entry the property is `undefined`;
where the source interpolates it into a template string, JS renders
`"undefined"`. -/
def ChangeEntry.fileStr : ChangeEntry → String
  | .fileEntry _ f => f
  | .renameEntry _ _ _ _ => "undefined"

/-- TS `e.from` as interpolated into a template string (`"undefined"` when
the property is absent). -/
def ChangeEntry.fromStr : ChangeEntry → String
  | .renameEntry _ f _ _ => f
  | .fileEntry _ _ => "undefined"

/-- TS `e.to` as interpolated into a template string (`"undefined"` when
the property is absent). -/
def ChangeEntry.toStr : ChangeEntry → String
  | .renameEntry _ _ t _ => t
  | .fileEntry _ _ => "undefined"

/-- Embedding of `parseNameStatus` (src/commands/commit.ts:11-42).
Lines are split on `/\r?\n/`, trimmed, and empty lines dropped; each line
is split on `/\t+/` with empties filtered (`filter(Boolean)` — splitting on
single tabs and filtering empties yields the same field list).  A record
whose status code starts with `R` or `C` *and* has at least three fields
becomes a rename entry carrying a similarity score; every other record
falls through to the single-path shape, `file` being
`parts[1] || parts[0]`, with the kind character kept as-is (the TS
`as any` cast). -/
def parseNameStatus (nameStatusText : String) : List ChangeEntry :=
  let lines := ((splitLines nameStatusText).map jsTrim).filter (fun l => l ≠ "")
  lines.filterMap (fun line =>
    let parts := (splitChar '\t' line).filter (fun p => p ≠ "")
    match parts with
    | [] => none
    | p0 :: rest =>
      let rawCode := p0
      let kind := rawCode.toList.headD '?'
      if (kind = 'R' ∨ kind = 'C') ∧ parts.length ≥ 3 then
        let score := (rawCode.toList.tail).asString
        some (.renameEntry kind (parts.getD 1 "") (parts.getD 2 "")
          (if score = "" then none else some score))
      else
        -- `const file = parts[1] || parts[0]` — fallback
        let file := match rest with
          | [] => p0
          | p1 :: _ => if p1 = "" then p0 else p1
        some (.fileEntry kind file))

/-- The six buckets produced by `bucketize`. -/
structure Buckets where
  added : List String
  modified : List String
  deleted : List String
  renamed : List String
  copied : List String
  other : List String
  deriving DecidableEq, Repr

/-- The empty bucket set. -/
def Buckets.empty : Buckets := ⟨[], [], [], [], [], []⟩

/-- The accumulation loop of `bucketize` (src/commands/commit.ts:54-61),
before sorting: dispatch each entry on its kind character; renames and
copies are displayed as `"from → to"`; everything else lands in `other`,
displayed by its `file` field when present (`"file" in e`) and as
`"from → to"` otherwise. -/
def rawBucketize (entries : List ChangeEntry) : Buckets :=
  entries.foldl (fun b e =>
    if e.kind = 'A' then { b with added := b.added ++ [e.fileStr] }
    else if e.kind = 'M' then { b with modified := b.modified ++ [e.fileStr] }
    else if e.kind = 'D' then { b with deleted := b.deleted ++ [e.fileStr] }
    else if e.kind = 'R' then { b with renamed := b.renamed ++ [e.fromStr ++ " → " ++ e.toStr] }
    else if e.kind = 'C' then { b with copied := b.copied ++ [e.fromStr ++ " → " ++ e.toStr] }
    else
      { b with other := b.other ++ [match e with
          | .fileEntry _ f => f
          | .renameEntry _ f t _ => f ++ " → " ++ t] })
    Buckets.empty

/-- Embedding of `bucketize` (src/commands/commit.ts:44-73), generic in
the string comparison: accumulate the six buckets, then sort each with
`a.slice().sort((x, y) => x.localeCompare(y))`.  The default-locale
collation computed by `localeCompare` is environment-dependent (the
program runs under Deno, which embeds ICU), so the comparison is taken
here as a parameter `le`, constrained where theorems need it to be
total and transitive — which every consistent collation, ICU's
included, is. -/
def bucketizeWith (le : String → String → Prop) [DecidableRel le]
    (entries : List ChangeEntry) : Buckets :=
  let b := rawBucketize entries
  { added := jsSortWith le b.added
    modified := jsSortWith le b.modified
    deleted := jsSortWith le b.deleted
    renamed := jsSortWith le b.renamed
    copied := jsSortWith le b.copied
    other := jsSortWith le b.other }

/-- `bucketizeWith` instantiated at the concrete comparator `strLe`,
used where theorems evaluate buckets on concrete inputs; those inputs
yield buckets holding at most one distinct string, on which every
comparator produces the same bucket lists. -/
def bucketize (entries : List ChangeEntry) : Buckets :=
  bucketizeWith strLe entries

/-- Embedding of `shortPath` (src/commands/commit.ts:74-89): trim; return
as-is if within `max`; else try the last two `/`-segments; else the
basename; else hard-truncate the basename to `max - 1` characters (at
least 1) and append an ellipsis.  `parts.slice(-2)` is
`drop (length - 2)`, and `parts[parts.length - 1] ?? s` is `getLastD _ s`. -/
def shortPath (p : String) (max : Nat := 26) : String :=
  let s := jsTrim p
  if s.length ≤ max then s
  else
    let parts := (splitChar '/' s).filter (fun x => x ≠ "")
    let last2 := joinSep "/" (parts.drop (parts.length - 2))
    if last2.length ≤ max then last2
    else
      let base := parts.getLastD s
      if base.length ≤ max then base
      else (base.toList.take (Nat.max 1 (max - 1))).asString ++ "…"

/-- Result record of `joinNice`. -/
structure JoinResult where
  text : String
  remaining : Nat
  deriving DecidableEq, Repr

/-- Embedding of `joinNice` (src/commands/commit.ts:90-104): deduplicate
(`new Set`), drop empty strings (`filter(Boolean)`), show the first
`maxShow`; `remaining` is the leftover count (`Math.max(0, ...)` is the
identity here since `shown` is a subset of `uniq`, matching Nat
subtraction);  0 shown → empty text; 1 → the item; 2 → `"A and B"`;
3+ → Oxford-comma list `"A, B, and C"`. -/
def joinNice (items : List String) (maxShow : Nat) : JoinResult :=
  let uniq := (jsSetDedup items).filter (fun s => s ≠ "")
  let shown := uniq.take maxShow
  let remaining := uniq.length - shown.length
  if shown.length = 0 then ⟨"", remaining⟩
  else if shown.length = 1 then ⟨shown.headD "", remaining⟩
  else if shown.length = 2 then ⟨shown.headD "" ++ " and " ++ shown.getD 1 "", remaining⟩
  else ⟨joinSep ", " shown.dropLast ++ ", and " ++ shown.getLastD "", remaining⟩

/-- Embedding of `actionPhrase` (src/commands/commit.ts:106-111):
deduplicate the file list, shorten each path, nice-join; `null` when the
joined text is empty, else the verb plus the text plus a `(+K more)`
suffix when anything was truncated. -/
def actionPhrase (verb : String) (files : List String) (maxShow : Nat) : Option String :=
  let shortened := (jsSetDedup files).map (fun f => shortPath f)
  let r := joinNice shortened maxShow
  if r.text = "" then none
  else if r.remaining > 0 then
    some (verb ++ " " ++ r.text ++ " (+" ++ toString r.remaining ++ " more)")
  else some (verb ++ " " ++ r.text)

/-- `total` as computed by `buildSuggestedSubject`
(src/commands/commit.ts:114-120): the sum of the six bucket sizes. -/
def totalCount (b : Buckets) : Nat :=
  b.added.length + b.modified.length + b.deleted.length +
    b.renamed.length + b.copied.length + b.other.length

/-- The `parts` list assembled by `buildSuggestedSubject`
(src/commands/commit.ts:127-145): phrases for Added/Updated/Deleted always,
for Renamed/Copied only when the change set is small or that bucket is the
entire change set. -/
def subjectParts (b : Buckets) : List String :=
  let total := totalCount b
  let small := total ≤ 3
  let maxShow := if small then 3 else 2
  let added := actionPhrase "Added" b.added maxShow
  let modified := actionPhrase "Updated" b.modified maxShow
  let deleted := actionPhrase "Deleted" b.deleted maxShow
  let onlyRenames := total > 0 ∧ b.renamed.length = total
  let onlyCopies := total > 0 ∧ b.copied.length = total
  let renamed := if small ∨ onlyRenames then actionPhrase "Renamed" b.renamed maxShow else none
  let copied := if small ∨ onlyCopies then actionPhrase "Copied" b.copied maxShow else none
  [added, modified, deleted, renamed, copied].filterMap id

/-- Embedding of `buildSuggestedSubject` (src/commands/commit.ts:113-161):
if no phrase was produced, fall back to `"Updated N files"`; if the set is
not small and `total > 6`, append a `"(N files)"` suffix; otherwise join
the phrases with `"; "`. -/
def buildSuggestedSubject (b : Buckets) : String :=
  let total := totalCount b
  let small := total ≤ 3
  let parts := subjectParts b
  if parts = [] then
    if total = 1 then "Updated 1 file" else "Updated " ++ toString total ++ " files"
  else if ¬small ∧ total > 6 then
    joinSep "; " parts ++ " (" ++ toString total ++ " files)"
  else
    joinSep "; " parts

/-- Embedding of `formatSection` (src/commands/commit.ts:164-175). -/
def formatSection (title : String) (items : List String) (limit : Nat) : List String :=
  if items = [] then []
  else
    let shown := items.take limit
    let remaining := items.length - shown.length
    ([title ++ ":"] ++ shown.map (fun x => "- " ++ x)) ++
      (if remaining > 0 then ["- …and " ++ toString remaining ++ " more"] else [])

/-- The `lines` accumulated by `buildBody` (src/commands/commit.ts:184-194):
six capped sections in fixed order. -/
def bodyLines (b : Buckets) : List String :=
  formatSection "Added" b.added 12 ++
    formatSection "Modified" b.modified 14 ++
    formatSection "Deleted" b.deleted 8 ++
    formatSection "Renamed" b.renamed 6 ++
    formatSection "Copied" b.copied 6 ++
    formatSection "Other" b.other 6

/-- Embedding of `buildBody` (src/commands/commit.ts:177-200): six capped
sections; if every section is empty, a fixed placeholder. -/
def buildBody (b : Buckets) : String :=
  if bodyLines b = [] then "Files:\n- (no file list available)"
  else joinSep "\n" (bodyLines b)

/-- Model of JS `String.prototype.endsWith`. -/
def strEndsWith (s post : String) : Bool :=
  post.toList.isSuffixOf s.toList

/-! ## `src/commands/clean_branches.ts` — branch/PR reconciliation -/

/-- An open pull request as shaped by `fetchOpenPRs`
(src/commands/clean_branches.ts). -/
structure PR where
  number : Nat
  title : String
  url : String
  isDraft : Bool
  headRef : String
  headLabel : String
  deriving DecidableEq, Repr

/-- The protected-name set built by `cleanBranchesCmd`:
`new Set((opts.protected ?? "main,master,integration,develop").split(",").map(trim).filter(Boolean))`.
JS `Set` membership coincides with list membership of the deduplicated
split list. -/
def computeProtectedSet (optsProtected : Option String) : List String :=
  jsSetDedup
    (((splitChar ',' (optsProtected.getD "main,master,integration,develop")).map jsTrim).filter
      (fun s => s ≠ ""))

/-- Candidate selection of `cleanBranchesCmd`:
`all.filter((b) => !protectedSet.has(b) && b !== current)`. -/
def branchCandidates (protectedSet : List String) (current : String) (all : List String) :
    List String :=
  all.filter (fun b => !(protectedSet.contains b) && !(b == current))

/-- JS `Map.prototype.set`: update the entry in place when the key is
present, else append a new entry. -/
def mapSet {α : Type} : List (String × α) → String → α → List (String × α)
  | [], k, v => [(k, v)]
  | (k', v') :: rest, k, v =>
    if k' = k then (k, v) :: rest else (k', v') :: mapSet rest k v

/-- JS `Map.prototype.get`: the value at the first entry with this key,
if any. -/
def mapGet {α : Type} (m : List (String × α)) (k : String) : Option α :=
  (m.find? (fun kv => kv.1 == k)).map (fun kv => kv.2)

/-- The case-insensitive index of candidate branches:
`new Map(candidates.map((b) => [b.toLowerCase(), b]))` — a `Map` built from
an entry list is the result of `set`-ting each entry in order. -/
def lowerIndex (candidates : List String) : List (String × String) :=
  (candidates.map (fun b => (jsToLower b, b))).foldl (fun m kv => mapSet m kv.1 kv.2) []

/-- One iteration of the PR-correlation loop
(src/commands/clean_branches.ts): look the PR's lower-cased head ref up in
the candidate index; on a (truthy, i.e. nonempty) match, `set` it in the
result map, overwriting any earlier match for the same branch. -/
def correlateStep (lower : List (String × String)) (acc : List (String × PR)) (pr : PR) :
    List (String × PR) :=
  match mapGet lower (jsToLower pr.headRef) with
  | some m => if m = "" then acc else mapSet acc m pr
  | none => acc

/-- The PR-correlation loop: `prByBranch` after iterating over all fetched
PRs in API return order. -/
def correlatePRs (candidates : List String) (prs : List PR) : List (String × PR) :=
  prs.foldl (correlateStep (lowerIndex candidates)) []

/-- Whether the correlation loop records `pr` under branch key `b`:
its lower-cased head ref hits `b` in the candidate index and `b` is
nonempty. -/
def prMatches (lower : List (String × String)) (b : String) (pr : PR) : Bool :=
  (mapGet lower (jsToLower pr.headRef) == some b) && !(b == "")

/-- The safe-delete pass of `cleanBranchesCmd`: iterate over the selected
branches in order; `ok b` abstracts whether `git branch -d b` succeeds.
Successes are reported deleted (first component), failures are collected
(second component, the `failed` array of the source) — a failure never
aborts the loop. -/
def safeDeleteBatch (ok : String → Bool) (selections : List String) :
    List String × List String :=
  selections.foldl
    (fun acc b => if ok b then (acc.1 ++ [b], acc.2) else (acc.1, acc.2 ++ [b]))
    ([], [])

/-! ## Helper lemmas -/

/-- The length of `l.asString` is the length of `l`. -/
theorem length_asString (l : List Char) : (List.asString l).length = l.length := rfl

/-- Appending two strings adds their lengths (restated for rewriting). -/
theorem strLength_append (a b : String) : (a ++ b).length = a.length + b.length :=
  String.length_append a b

/-! ## C1 — deletion candidates vs the protected set -/

/-- C1 counterexample: with the default protected set, a branch named
`release/1.0` *is* offered as a deletion candidate — the code has no
`release/*` rule in `cleanBranchesCmd`. -/
theorem branchCandidates_release_cex :
    branchCandidates (computeProtectedSet none) "main" ["main", "release/1.0"] =
      ["release/1.0"] ∧
    jsStartsWith "release/1.0" "release/" = true := by decide

/-- C1 (amended): for every input branch list and current branch, the
candidate list computed with the default protected set contains neither
the current branch nor any of `main`, `master`, `integration`, `develop`
(branches beginning `release/` are *not* excluded). -/
theorem branchCandidates_default_protected (all : List String) (current b : String)
    (h : b ∈ branchCandidates (computeProtectedSet none) current all) :
    b ≠ current ∧ b ∉ (["main", "master", "integration", "develop"] : List String) := by
  have hps : computeProtectedSet none = ["main", "master", "integration", "develop"] := by
    decide
  rw [branchCandidates, hps] at h
  rw [List.mem_filter] at h
  obtain ⟨-, h2⟩ := h
  simp at h2
  exact ⟨h2.2, by simpa using h2.1⟩

/-- C1 witness: the amended statement at a concrete input. -/
theorem branchCandidates_default_protected_witness :
    "feature/x" ≠ "main" ∧
    "feature/x" ∉ (["main", "master", "integration", "develop"] : List String) :=
  branchCandidates_default_protected ["main", "feature/x"] "main" "feature/x" (by decide)

/-! ## C3 — the rename/copy fallback keeps the kind letter -/

/-- C3: a rename record with a single path field is parsed into an entry
that *still* has kind `'R'` but carries only one path (the TS fallback
`out.push({ kind, file } as any)`), and `bucketize` then renders it as
`"undefined → undefined"`.  This contradicts the declared `ChangeEntry`
union (renames always carry `from`/`to`) — the spec's "degrades to
Unknown" is the intent, the cast is the slip. -/
theorem parseNameStatus_rename_fallback :
    parseNameStatus "R100\told" = [ChangeEntry.fileEntry 'R' "old"] ∧
    (bucketize (parseNameStatus "R100\told")).renamed = ["undefined → undefined"] := by
  decide

/-! ## C5 — two-phase batch deletion -/

/-- The safe-delete fold, started from any accumulator, appends exactly
the `ok`-filtered and `!ok`-filtered selections. -/
theorem safeDelete_foldl (ok : String → Bool) :
    ∀ (sel : List String) (acc : List String × List String),
      sel.foldl
        (fun acc b => if ok b then (acc.1 ++ [b], acc.2) else (acc.1, acc.2 ++ [b])) acc =
      (acc.1 ++ sel.filter ok, acc.2 ++ sel.filter (fun b => !(ok b)))
  | [], acc => by simp
  | b :: sel, acc => by
    cases hok : ok b with
    | true => simp [List.foldl_cons, hok, safeDelete_foldl ok sel]
    | false => simp [List.foldl_cons, hok, safeDelete_foldl ok sel]

/-- C5: the safe-delete pass attempts every selected branch — the branches
reported deleted are exactly those whose delete succeeded, and the subset
offered for forced deletion is exactly those whose delete failed; in
particular for `[a, b, c]` with only `b` failing, the result is
`(["a", "c"], ["b"])`. -/
theorem safeDeleteBatch_spec (ok : String → Bool) (sel : List String) :
    (safeDeleteBatch ok sel).1 = sel.filter ok ∧
    (safeDeleteBatch ok sel).2 = sel.filter (fun b => !(ok b)) ∧
    safeDeleteBatch (fun b => !(b == "b")) ["a", "b", "c"] = (["a", "c"], ["b"]) := by
  refine ⟨?_, ?_, by decide⟩ <;>
    simp [safeDeleteBatch, safeDelete_foldl ok sel ([], [])]

/-! ## C7 — path shortening on short inputs -/

/-- C7 counterexample: `shortPath` trims first, so it is not the identity
on every string of length at most 26 — `" a"` maps to `"a"`. -/
theorem shortPath_id_cex : (" a" : String).length ≤ 26 ∧ shortPath " a" ≠ " a" := by decide

/-- C7 (amended): `shortPath` is the identity on paths of length at most
26 that carry no surrounding whitespace (trimming is the identity on
them). -/
theorem shortPath_id_amended (p : String) (htrim : jsTrim p = p) (hlen : p.length ≤ 26) :
    shortPath p = p := by
  simp [shortPath, htrim, hlen]

/-- C7 witness: the amended statement at a concrete input. -/
theorem shortPath_id_witness : shortPath "src/commit.ts" = "src/commit.ts" :=
  shortPath_id_amended "src/commit.ts" (by decide) (by decide)

/-! ## C10 — the display cap of path shortening -/

/-- C10: every branch of `shortPath` respects the 26-character display
cap. -/
theorem shortPath_length_le (p : String) : (shortPath p).length ≤ 26 := by
  simp only [shortPath]
  split
  next h1 => exact h1
  next h1 =>
    split
    next h2 => exact h2
    next h2 =>
      split
      next h3 => exact h3
      next h3 =>
        rw [strLength_append, length_asString]
        have hm : Nat.max 1 (26 - 1) = 25 := rfl
        rw [hm]
        have ht := List.length_take_le 25
          (((splitChar '/' (jsTrim p)).filter (fun x => x ≠ "")).getLastD (jsTrim p)).toList
        have hf : ("…" : String).length = 1 := rfl
        omega

/-! ## C8 — nice-join reference cases -/

/-- C8: the reference cases of `joinNice`.  The cap `k` is schematic in
the first three cases; it must of course be large enough to show the
listed items (`k ≥ 1`, resp. `k ≥ 2`). -/
theorem joinNice_reference (k : Nat) :
    joinNice [] k = ⟨"", 0⟩ ∧
    (1 ≤ k → joinNice ["a"] k = ⟨"a", 0⟩) ∧
    (2 ≤ k → joinNice ["a", "b"] k = ⟨"a and b", 0⟩) ∧
    joinNice ["a", "b", "c"] 3 = ⟨"a, b, and c", 0⟩ ∧
    joinNice ["a", "b", "c", "d"] 2 = ⟨"a and b", 2⟩ := by
  refine ⟨?_, ?_, ?_, by decide, by decide⟩
  · simp [joinNice, jsSetDedup, dedupAux]
  · intro h
    obtain ⟨k', rfl⟩ := Nat.exists_eq_add_of_le' h
    simp [joinNice, jsSetDedup, dedupAux]
  · intro h
    obtain ⟨k', rfl⟩ := Nat.exists_eq_add_of_le' h
    simp [joinNice, jsSetDedup, dedupAux]

/-- C8 witness: the reference cases at the concrete cap `k = 3`. -/
theorem joinNice_reference_witness :
    joinNice ["a"] 3 = ⟨"a", 0⟩ ∧ joinNice ["a", "b"] 3 = ⟨"a and b", 0⟩ :=
  ⟨(joinNice_reference 3).2.1 (by decide), (joinNice_reference 3).2.2.1 (by decide)⟩

/-! ## C9 — body synthesis is never empty -/

/-- Joining a nonempty list is at least as long as its head. -/
theorem joinSep_length_ge (sep : String) :
    ∀ (x : String) (xs : List String), x.length ≤ (joinSep sep (x :: xs)).length
  | _, [] => le_refl _
  | x, y :: ys => by
    show x.length ≤ (x ++ sep ++ joinSep sep (y :: ys)).length
    rw [strLength_append, strLength_append]
    omega

/-- Every line emitted by `formatSection` is nonempty. -/
theorem formatSection_pos (t : String) (items : List String) (lim : Nat) :
    ∀ s ∈ formatSection t items lim, 0 < s.length := by
  intro s hs
  rw [formatSection] at hs
  split at hs
  · simp at hs
  · simp only [List.mem_append, List.mem_map, List.mem_singleton] at hs
    have hcolon : (":" : String).length = 1 := rfl
    have hdash : ("- " : String).length = 2 := rfl
    have hand : ("- …and " : String).length = 7 := rfl
    rcases hs with (hs | ⟨x, -, hx⟩) | hs
    · subst hs
      rw [strLength_append]
      omega
    · subst hx
      rw [strLength_append]
      omega
    · split at hs
      · rw [List.mem_singleton] at hs
        subst hs
        rw [strLength_append, strLength_append]
        omega
      · simp at hs

/-- Every line of `bodyLines` is nonempty. -/
theorem bodyLines_pos (b : Buckets) : ∀ s ∈ bodyLines b, 0 < s.length := by
  intro s hs
  rw [bodyLines] at hs
  simp only [List.mem_append] at hs
  rcases hs with ((((hs | hs) | hs) | hs) | hs) | hs <;>
    exact formatSection_pos _ _ _ s hs

/-- C9: body synthesis never returns the empty string, and when every
bucket is empty it returns exactly the placeholder line. -/
theorem buildBody_nonempty (b : Buckets) :
    buildBody b ≠ "" ∧
    (b.added = [] ∧ b.modified = [] ∧ b.deleted = [] ∧ b.renamed = [] ∧ b.copied = [] ∧
        b.other = [] →
      buildBody b = "Files:\n- (no file list available)") := by
  constructor
  · cases hb : bodyLines b with
    | nil =>
      rw [buildBody, hb]
      decide
    | cons x xs =>
      rw [buildBody, hb]
      simp only [reduceCtorEq, if_false]
      have hx : 0 < x.length := bodyLines_pos b x (hb ▸ List.mem_cons_self x xs)
      have hlen := joinSep_length_ge "\n" x xs
      intro heq
      rw [heq] at hlen
      have : ("" : String).length = 0 := rfl
      omega
  · rintro ⟨h1, h2, h3, h4, h5, h6⟩
    rw [buildBody]
    rw [if_pos]
    rw [bodyLines, h1, h2, h3, h4, h5, h6]
    rfl

/-- C9 witness: the all-empty bucket set takes the placeholder branch and
is nonempty. -/
theorem buildBody_nonempty_witness :
    buildBody Buckets.empty ≠ "" ∧
    buildBody Buckets.empty = "Files:\n- (no file list available)" :=
  ⟨(buildBody_nonempty Buckets.empty).1,
    (buildBody_nonempty Buckets.empty).2 (by decide)⟩

/-! ## C4 — bucket ordering -/

/-- `charListLe` is total. -/
theorem charListLe_total : ∀ a b : List Char, charListLe a b = true ∨ charListLe b a = true
  | [], _ => Or.inl rfl
  | _ :: _, [] => Or.inr rfl
  | a :: as, b :: bs => by
    by_cases hab : a = b
    · subst hab
      rcases charListLe_total as bs with h | h
      · exact Or.inl (by simpa [charListLe] using h)
      · exact Or.inr (by simpa [charListLe] using h)
    · rcases lt_or_gt_of_ne hab with h | h
      · exact Or.inl (by simp [charListLe, hab, h])
      · exact Or.inr (by simp [charListLe, Ne.symm hab, h])

/-- `charListLe` is transitive. -/
theorem charListLe_trans :
    ∀ a b c : List Char,
      charListLe a b = true → charListLe b c = true → charListLe a c = true
  | [], _, _, _, _ => rfl
  | _ :: _, [], _, h1, _ => by simp [charListLe] at h1
  | _ :: _, _ :: _, [], _, h2 => by simp [charListLe] at h2
  | a :: as, b :: bs, c :: cs, h1, h2 => by
    by_cases hab : a = b
    · subst hab
      by_cases hac : a = c
      · subst hac
        rw [charListLe, if_pos rfl] at h1 h2 ⊢
        exact charListLe_trans as bs cs h1 h2
      · rw [charListLe, if_neg hac] at h2 ⊢
        exact h2
    · rw [charListLe, if_neg hab] at h1
      have hlt1 : a < b := of_decide_eq_true h1
      by_cases hbc : b = c
      · subst hbc
        rw [charListLe, if_neg hab]
        exact h1
      · rw [charListLe, if_neg hbc] at h2
        have hlt2 : b < c := of_decide_eq_true h2
        have hac : a < c := lt_trans hlt1 hlt2
        rw [charListLe, if_neg (ne_of_lt hac)]
        exact decide_eq_true hac

instance : IsTotal String strLe :=
  ⟨fun a b => charListLe_total a.toList b.toList⟩

instance : IsTrans String strLe :=
  ⟨fun a b c => charListLe_trans a.toList b.toList c.toList⟩

/-- C4 counterexample: buckets are *not* deduplicated — two identical
`Added` records survive as two copies of the same display string. -/
theorem bucketize_dedup_cex :
    (bucketize [ChangeEntry.fileEntry 'A' "x", ChangeEntry.fileEntry 'A' "x"]).added =
      ["x", "x"] ∧
    ¬(bucketize [ChangeEntry.fileEntry 'A' "x", ChangeEntry.fileEntry 'A' "x"]).added.Nodup := by
  decide

/-- C4 (amended): for every total, transitive string comparison `le` —
in particular for whatever default-locale collation `localeCompare`
implements in the running environment — each of the six buckets is the
list of display strings of exactly the entries of that kind (duplicates
preserved — no deduplication happens at bucketization), arranged in
ascending order with respect to `le`. -/
theorem bucketizeWith_sorted_amended (le : String → String → Prop) [DecidableRel le]
    (htot : ∀ a b, le a b ∨ le b a)
    (htrans : ∀ a b c, le a b → le b c → le a c) (entries : List ChangeEntry) :
    ((bucketizeWith le entries).added.Perm (rawBucketize entries).added ∧
      List.Sorted le (bucketizeWith le entries).added) ∧
    ((bucketizeWith le entries).modified.Perm (rawBucketize entries).modified ∧
      List.Sorted le (bucketizeWith le entries).modified) ∧
    ((bucketizeWith le entries).deleted.Perm (rawBucketize entries).deleted ∧
      List.Sorted le (bucketizeWith le entries).deleted) ∧
    ((bucketizeWith le entries).renamed.Perm (rawBucketize entries).renamed ∧
      List.Sorted le (bucketizeWith le entries).renamed) ∧
    ((bucketizeWith le entries).copied.Perm (rawBucketize entries).copied ∧
      List.Sorted le (bucketizeWith le entries).copied) ∧
    ((bucketizeWith le entries).other.Perm (rawBucketize entries).other ∧
      List.Sorted le (bucketizeWith le entries).other) := by
  haveI : IsTotal String le := ⟨htot⟩
  haveI : IsTrans String le := ⟨htrans⟩
  exact ⟨⟨List.perm_insertionSort le _, List.sorted_insertionSort le _⟩,
    ⟨List.perm_insertionSort le _, List.sorted_insertionSort le _⟩,
    ⟨List.perm_insertionSort le _, List.sorted_insertionSort le _⟩,
    ⟨List.perm_insertionSort le _, List.sorted_insertionSort le _⟩,
    ⟨List.perm_insertionSort le _, List.sorted_insertionSort le _⟩,
    ⟨List.perm_insertionSort le _, List.sorted_insertionSort le _⟩⟩

/-- C4 witness: the amended statement at the concrete total, transitive
comparator `strLe` and a concrete entry list. -/
theorem bucketizeWith_sorted_amended_witness :
    (bucketizeWith strLe [ChangeEntry.fileEntry 'A' "b", ChangeEntry.fileEntry 'A' "a"]).added.Perm
        (rawBucketize [ChangeEntry.fileEntry 'A' "b", ChangeEntry.fileEntry 'A' "a"]).added ∧
      List.Sorted strLe
        (bucketizeWith strLe
            [ChangeEntry.fileEntry 'A' "b", ChangeEntry.fileEntry 'A' "a"]).added :=
  (bucketizeWith_sorted_amended strLe
    (fun a b => charListLe_total a.toList b.toList)
    (fun a b c => charListLe_trans a.toList b.toList c.toList)
    [ChangeEntry.fileEntry 'A' "b", ChangeEntry.fileEntry 'A' "a"]).1

/-! ## C6 — the honesty suffix of the subject line -/

/-- A string append ends with its right operand. -/
theorem strEndsWith_append (a b : String) : strEndsWith (a ++ b) b = true := by
  rw [strEndsWith]
  have hdata : (a ++ b).toList = a.toList ++ b.toList := String.data_append a b
  rw [hdata]
  simp [List.isSuffixOf]

/-- C6 counterexample: a change set of 7 unknown-kind entries has
`total = 7 > 6`, yet the subject is the bare fallback `"Updated 7 files"`
with no parenthetical suffix. -/
theorem subject_suffix_cex :
    totalCount ⟨[], [], [], [], [], ["a", "b", "c", "d", "e", "f", "g"]⟩ = 7 ∧
    buildSuggestedSubject ⟨[], [], [], [], [], ["a", "b", "c", "d", "e", "f", "g"]⟩ =
      "Updated 7 files" ∧
    strEndsWith
      (buildSuggestedSubject ⟨[], [], [], [], [], ["a", "b", "c", "d", "e", "f", "g"]⟩)
      "(7 files)" = false := by
  decide

/-- C6 (amended): whenever `total > 6` *and* at least one action phrase
was produced, the subject ends with the parenthetical `"(N files)"`
carrying the true total count.  (When no phrase is produced the code
returns the `"Updated N files"` fallback with no parenthetical.) -/
theorem subject_suffix_amended (b : Buckets) (h6 : totalCount b > 6)
    (hp : subjectParts b ≠ []) :
    strEndsWith (buildSuggestedSubject b)
      ("(" ++ toString (totalCount b) ++ " files)") = true := by
  simp only [buildSuggestedSubject]
  rw [if_neg hp]
  have hns : ¬totalCount b ≤ 3 := by omega
  rw [if_pos ⟨hns, h6⟩]
  have hsplit :
      joinSep "; " (subjectParts b) ++ " (" ++ toString (totalCount b) ++ " files)" =
        (joinSep "; " (subjectParts b) ++ " ") ++
          ("(" ++ toString (totalCount b) ++ " files)") := by
    have h1 : (" (" : String) = " " ++ "(" := rfl
    rw [h1, ← String.append_assoc, String.append_assoc _ "(" _, String.append_assoc]
  rw [hsplit]
  exact strEndsWith_append _ _

/-- C6 witness: the amended statement at a concrete 7-file change set. -/
theorem subject_suffix_witness :
    strEndsWith
      (buildSuggestedSubject ⟨["f1", "f2", "f3", "f4", "f5", "f6", "f7"], [], [], [], [], []⟩)
      ("(" ++
        toString (totalCount ⟨["f1", "f2", "f3", "f4", "f5", "f6", "f7"], [], [], [], [], []⟩) ++
        " files)") = true :=
  subject_suffix_amended ⟨["f1", "f2", "f3", "f4", "f5", "f6", "f7"], [], [], [], [], []⟩
    (by decide) (by decide)

/-! ## C2 — branch/PR correlation -/

/-- `mapGet` after `mapSet`: the set key now maps to the new value, every
other key is unchanged. -/
theorem mapGet_mapSet {α : Type} (m : List (String × α)) (k : String) (v : α) (b : String) :
    mapGet (mapSet m k v) b = if k = b then some v else mapGet m b := by
  induction m with
  | nil =>
    by_cases h : k = b
    · simp [mapSet, mapGet, List.find?, h]
    · simp [mapSet, mapGet, List.find?, h, beq_eq_false_iff_ne.mpr h]
  | cons kv rest ih =>
    obtain ⟨k', v'⟩ := kv
    by_cases h1 : k' = k
    · subst h1
      by_cases h2 : k' = b
      · simp [mapSet, mapGet, List.find?, h2]
      · simp [mapSet, mapGet, List.find?, h2, beq_eq_false_iff_ne.mpr h2]
    · by_cases h2 : k' = b
      · subst h2
        have hkb : ¬k = k' := fun h => h1 h.symm
        simp [mapSet, h1, mapGet, List.find?, hkb]
      · simp only [mapSet, if_neg h1]
        simp only [mapGet, List.find?] at ih ⊢
        simp only [show (k' == b) = false from beq_eq_false_iff_ne.mpr h2]
        exact ih

/-- `mapSet` leaves the key list unchanged when the key is present and
appends it otherwise. -/
theorem mapSet_keys {α : Type} :
    ∀ (m : List (String × α)) (k : String) (v : α),
      (mapSet m k v).map Prod.fst =
        if k ∈ m.map Prod.fst then m.map Prod.fst else m.map Prod.fst ++ [k]
  | [], k, v => by simp [mapSet]
  | (k', v') :: rest, k, v => by
    by_cases h : k' = k
    · subst h
      simp [mapSet]
    · have hne : ¬k = k' := fun hh => h hh.symm
      by_cases h2 : k ∈ rest.map Prod.fst <;>
        simp [mapSet, h, mapSet_keys rest k v, h2, hne]

/-- `mapSet` preserves key uniqueness. -/
theorem mapSet_nodup {α : Type} (m : List (String × α)) (k : String) (v : α)
    (h : (m.map Prod.fst).Nodup) : ((mapSet m k v).map Prod.fst).Nodup := by
  rw [mapSet_keys]
  split
  · exact h
  · next hk =>
    rw [List.nodup_append]
    exact ⟨h, List.nodup_singleton k, by simpa using hk⟩

/-- A correlation step for a non-matching PR does not change the value
recorded for branch `b`. -/
theorem correlateStep_no_match (lower : List (String × String)) (b : String)
    (acc : List (String × PR)) (pr : PR) (hm : prMatches lower b pr = false) :
    mapGet (correlateStep lower acc pr) b = mapGet acc b := by
  rw [correlateStep]
  cases hg : mapGet lower (jsToLower pr.headRef) with
  | none => rfl
  | some m =>
    by_cases hme : m = ""
    · simp [hme]
    · simp only [if_neg hme]
      rw [mapGet_mapSet]
      have hmb : ¬m = b := by
        intro hmb
        subst hmb
        rw [prMatches, hg] at hm
        simp [hme] at hm
      rw [if_neg hmb]

/-- A correlation step for a matching PR records it under branch `b`. -/
theorem correlateStep_match (lower : List (String × String)) (b : String)
    (acc : List (String × PR)) (pr : PR) (hm : prMatches lower b pr = true) :
    mapGet (correlateStep lower acc pr) b = some pr := by
  rw [prMatches, Bool.and_eq_true, beq_iff_eq, Bool.not_eq_true', beq_eq_false_iff_ne] at hm
  obtain ⟨hg, hb⟩ := hm
  rw [correlateStep, hg]
  show mapGet (if b = "" then acc else mapSet acc b pr) b = some pr
  rw [if_neg hb, mapGet_mapSet, if_pos rfl]

/-- The correlation fold records, for each branch, the last matching PR in
list order (or leaves the accumulator's answer when none matches). -/
theorem correlate_foldl (lower : List (String × String)) (b : String) (prs : List PR) :
    ∀ acc : List (String × PR),
      mapGet (prs.foldl (correlateStep lower) acc) b =
        match (prs.filter (prMatches lower b)).getLast? with
        | some pr => some pr
        | none => mapGet acc b := by
  induction prs using List.reverseRecOn with
  | nil => intro acc; rfl
  | append_singleton prs pr ih =>
    intro acc
    rw [List.foldl_append, List.foldl_cons, List.foldl_nil, List.filter_append]
    cases hm : prMatches lower b pr with
    | true =>
      have : List.filter (prMatches lower b) [pr] = [pr] := by simp [hm]
      rw [this, List.getLast?_concat]
      exact correlateStep_match lower b _ pr hm
    | false =>
      have : List.filter (prMatches lower b) [pr] = [] := by simp [hm]
      rw [this, List.append_nil]
      rw [correlateStep_no_match lower b _ pr hm]
      exact ih acc

/-- The correlation fold preserves key uniqueness of the accumulator. -/
theorem correlate_foldl_nodup (lower : List (String × String)) :
    ∀ (prs : List PR) (acc : List (String × PR)),
      (acc.map Prod.fst).Nodup → (((prs.foldl (correlateStep lower) acc).map Prod.fst).Nodup)
  | [], _, h => h
  | pr :: prs, acc, h => by
    rw [List.foldl_cons]
    apply correlate_foldl_nodup lower prs
    rw [correlateStep]
    cases hg : mapGet lower (jsToLower pr.headRef) with
    | none => exact h
    | some m =>
      by_cases hme : m = ""
      · simpa [hme] using h
      · simpa [hme] using mapSet_nodup acc m pr h

/-- C2 counterexample: with two open PRs whose head refs both
case-insensitively equal the candidate branch `feat`, the branch is
correlated with the *second* (last) PR in API return order, not the
first. -/
theorem correlatePRs_first_match_cex :
    mapGet
        (correlatePRs ["feat"]
          [⟨1, "one", "u1", false, "feat", "feat"⟩,
            ⟨2, "two", "u2", false, "FEAT", "FEAT"⟩])
        "feat" =
      some ⟨2, "two", "u2", false, "FEAT", "FEAT"⟩ ∧
    (⟨2, "two", "u2", false, "FEAT", "FEAT"⟩ : PR) ≠ ⟨1, "one", "u1", false, "feat", "feat"⟩ := by
  decide

/-- C2 (amended): for every candidate list and PR list, each branch is
correlated with at most one PR — the correlation map's keys are unique —
and the PR recorded for a branch is the *last* PR in API return order
whose head ref case-insensitively matches it (none when no PR matches). -/
theorem correlatePRs_last_match (cs : List String) (prs : List PR) (b : String) :
    mapGet (correlatePRs cs prs) b = (prs.filter (prMatches (lowerIndex cs) b)).getLast? ∧
    ((correlatePRs cs prs).map Prod.fst).Nodup := by
  constructor
  · rw [correlatePRs, correlate_foldl (lowerIndex cs) b prs []]
    cases (prs.filter (prMatches (lowerIndex cs) b)).getLast? <;> rfl
  · exact correlate_foldl_nodup (lowerIndex cs) prs [] (by simp)

end Gu
